import Mathlib

/-!
# Verification of the YoutubeDownloader task engine (src/main.py)

A shallow embedding, in Lean 4, of the pure logic of the Flask-based
YouTube download service found in `src/main.py`, together with proofs of
the behavioural claims made by the natural-language specification.

Python strings are modelled as `List Char` (`PyStr`), restricted to the
ASCII fragment actually exercised by the program (quality labels,
resolutions, file names).  Python string primitives (`strip`, `lower`,
`split`, `endswith`, `isdigit`, decimal formatting) are given faithful
executable models below, and each translated function keeps the name of
its Python source where Lean permits it.
-/

/-- Python `str` model: a list of characters. -/
abbrev PyStr := List Char

/-- Python whitespace (`str.strip` / `str.split` default set), by code point:
space, tab, newline, carriage return, vertical tab, form feed. -/
def pyIsSpace (c : Char) : Bool :=
  decide (c.toNat = 32 ∨ c.toNat = 9 ∨ c.toNat = 10 ∨ c.toNat = 13 ∨
    c.toNat = 11 ∨ c.toNat = 12)

/-- Python `str.lower` on one character (ASCII letters, as exercised here). -/
def pyLowerChar (c : Char) : Char :=
  if 65 ≤ c.toNat ∧ c.toNat ≤ 90 then Char.ofNat (c.toNat + 32) else c

/-- Python `str.lower`. -/
def pyLower (s : PyStr) : PyStr := s.map pyLowerChar

/-- Python `str.strip()`: drop leading and trailing whitespace. -/
def pyStrip (s : PyStr) : PyStr :=
  ((s.dropWhile pyIsSpace).reverse.dropWhile pyIsSpace).reverse

/-- Python `str.endswith`. -/
def pyEndsWith (s suffixStr : PyStr) : Bool := suffixStr.isSuffixOf s

/-- Python `str.isdigit()` (ASCII digits): nonempty and all digits. -/
def pyIsDigit (s : PyStr) : Bool := !s.isEmpty && s.all Char.isDigit

/-- Numeric value of a digit string, as computed by Python `int(...)`. -/
def pyDigitsVal (s : PyStr) : Nat :=
  s.foldl (fun a c => a * 10 + (c.toNat - 48)) 0

/-! ## Character-level facts about the Python string model -/

theorem char_toNat_ofNat_valid {n : Nat} (h : n.isValidChar) :
    (Char.ofNat n).toNat = n := by
  simp only [Char.ofNat, dif_pos h]
  simp [Char.toNat, Char.ofNatAux, UInt32.toNat]

theorem char_eq_of_toNat_eq {c d : Char} (h : c.toNat = d.toNat) : c = d :=
  Char.eq_of_val_eq (UInt32.toNat.inj h)

theorem pyLowerChar_toNat (c : Char) :
    (pyLowerChar c).toNat =
      if 65 ≤ c.toNat ∧ c.toNat ≤ 90 then c.toNat + 32 else c.toNat := by
  unfold pyLowerChar
  split
  · next h => exact char_toNat_ofNat_valid (Or.inl (by omega))
  · next h => rfl

theorem pyIsSpace_pyLowerChar (c : Char) :
    pyIsSpace (pyLowerChar c) = pyIsSpace c := by
  have h := pyLowerChar_toNat c
  by_cases hc : 65 ≤ c.toNat ∧ c.toNat ≤ 90
  · rw [if_pos hc] at h
    simp only [pyIsSpace, h]
    rw [decide_eq_decide]
    omega
  · rw [if_neg hc] at h
    simp only [pyIsSpace, h]

theorem pyLowerChar_idem (c : Char) :
    pyLowerChar (pyLowerChar c) = pyLowerChar c := by
  apply char_eq_of_toNat_eq
  have h := pyLowerChar_toNat c
  have h2 := pyLowerChar_toNat (pyLowerChar c)
  by_cases hc : 65 ≤ c.toNat ∧ c.toNat ≤ 90
  · rw [if_pos hc] at h
    rw [h2, h]
    have hno : ¬ (65 ≤ c.toNat + 32 ∧ c.toNat + 32 ≤ 90) := by omega
    rw [if_neg hno]
  · rw [if_neg hc] at h
    rw [h2, h, if_neg hc]

theorem pyLowerChar_of_digit {c : Char} (h : c.isDigit = true) :
    pyLowerChar c = c := by
  apply char_eq_of_toNat_eq
  rw [pyLowerChar_toNat]
  simp only [Char.isDigit, Bool.and_eq_true, decide_eq_true_eq] at h
  have hlo : 48 ≤ c.toNat := by
    simpa [UInt32.le_def, Fin.le_def] using h.1
  have hhi : c.toNat ≤ 57 := by
    simpa [UInt32.le_def, Fin.le_def] using h.2
  rw [if_neg (by omega)]

theorem pyIsSpace_of_digit {c : Char} (h : c.isDigit = true) :
    pyIsSpace c = false := by
  simp only [Char.isDigit, Bool.and_eq_true, decide_eq_true_eq] at h
  have hlo : 48 ≤ c.toNat := by
    simpa [UInt32.le_def, Fin.le_def] using h.1
  have hhi : c.toNat ≤ 57 := by
    simpa [UInt32.le_def, Fin.le_def] using h.2
  simp only [pyIsSpace, decide_eq_false_iff_not]
  omega

/-! ## String-level facts -/

theorem dropWhile_map_pyLowerChar (l : PyStr) :
    (l.map pyLowerChar).dropWhile pyIsSpace =
      (l.dropWhile pyIsSpace).map pyLowerChar := by
  induction l with
  | nil => rfl
  | cons c t ih =>
    simp only [List.map_cons, List.dropWhile_cons, pyIsSpace_pyLowerChar]
    by_cases hc : pyIsSpace c = true
    · simp [hc, ih]
    · simp [hc]

theorem pyStrip_pyLower_comm (s : PyStr) :
    pyStrip (pyLower s) = pyLower (pyStrip s) := by
  simp only [pyStrip, pyLower]
  rw [dropWhile_map_pyLowerChar, ← List.map_reverse, dropWhile_map_pyLowerChar,
    ← List.map_reverse]

theorem dropWhile_dropWhile (p : Char → Bool) (l : PyStr) :
    (l.dropWhile p).dropWhile p = l.dropWhile p := by
  induction l with
  | nil => rfl
  | cons c t ih =>
    by_cases hc : p c = true
    · simpa [List.dropWhile_cons, hc] using ih
    · simp [List.dropWhile_cons, hc]

theorem dropWhile_eq_self_of_head (p : Char → Bool) (l : PyStr)
    (h : ∀ c, l.head? = some c → p c = false) : l.dropWhile p = l := by
  cases l with
  | nil => rfl
  | cons x t =>
    rw [List.dropWhile_cons]
    simp [h x rfl]

theorem getLast?_dropWhile (p : Char → Bool) (l : PyStr) {c : Char}
    (h : (l.dropWhile p).getLast? = some c) : l.getLast? = some c := by
  obtain ⟨t, ht⟩ := List.dropWhile_suffix (l := l) p
  rw [← ht, List.getLast?_append, h]
  rfl

theorem pyStrip_idem (s : PyStr) : pyStrip (pyStrip s) = pyStrip s := by
  have h1 : (pyStrip s).dropWhile pyIsSpace = pyStrip s := by
    apply dropWhile_eq_self_of_head
    intro c hc
    rw [pyStrip, List.head?_reverse] at hc
    have hc2 := getLast?_dropWhile pyIsSpace (s.dropWhile pyIsSpace).reverse hc
    rw [List.getLast?_reverse] at hc2
    have hw := List.head?_dropWhile_not pyIsSpace s
    rw [hc2] at hw
    simpa using hw
  have h2 : ((pyStrip s).reverse).dropWhile pyIsSpace = (pyStrip s).reverse := by
    simp only [pyStrip, List.reverse_reverse]
    exact dropWhile_dropWhile _ _
  calc pyStrip (pyStrip s)
      = (((pyStrip s).dropWhile pyIsSpace).reverse.dropWhile pyIsSpace).reverse := rfl
    _ = (((pyStrip s).reverse).dropWhile pyIsSpace).reverse := by rw [h1]
    _ = ((pyStrip s).reverse).reverse := by rw [h2]
    _ = pyStrip s := List.reverse_reverse _

theorem dropWhile_of_forall_not (p : Char → Bool) (l : PyStr)
    (h : ∀ c ∈ l, p c = false) : l.dropWhile p = l := by
  cases l with
  | nil => rfl
  | cons x t =>
    rw [List.dropWhile_cons]
    simp [h x (by simp)]

theorem pyStrip_of_no_space (l : PyStr) (h : ∀ c ∈ l, pyIsSpace c = false) :
    pyStrip l = l := by
  simp only [pyStrip]
  rw [dropWhile_of_forall_not _ _ h]
  rw [dropWhile_of_forall_not _ _ (by intro c hc; exact h c (by simpa using hc))]
  exact List.reverse_reverse l

theorem pyLower_of_fixed (l : PyStr) (h : ∀ c ∈ l, pyLowerChar c = c) :
    pyLower l = l := by
  simp only [pyLower]
  exact List.map_congr_left h |>.trans (List.map_id l)

theorem pyLower_idem (s : PyStr) : pyLower (pyLower s) = pyLower s := by
  simp only [pyLower, List.map_map]
  exact List.map_congr_left (fun c _ => pyLowerChar_idem c)

/-! ## `_resolution_to_int` and `_normalize_quality` (src/main.py lines 279-342) -/

/-- `_resolution_to_int(resolution)`: parse a resolution label such as `720p`
to its integer height; `None` (or a label without a digits-then-`p` shape)
parses to `none`.  Translated from src/main.py lines 279-308. -/
def _resolution_to_int : Option PyStr → Option Nat
  | none => none
  | some r =>
    if r.isEmpty then none
    else
      let value := pyLower (pyStrip r)
      if pyEndsWith value ['p'] then
        let number := value.dropLast
        if pyIsDigit number then some (pyDigitsVal number) else none
      else none

/-- `_normalize_quality(quality, requested_format)`: canonicalize a quality
string (`"720"` to `"720p"` for mp4, `"128"` to `"128kbps"` for mp3).
Translated from src/main.py lines 311-342. -/
def _normalize_quality (quality : PyStr) (requested_format : String) : PyStr :=
  let value := pyLower (pyStrip quality)
  if requested_format = "mp4" then
    if pyEndsWith value ['p'] then value
    else if pyIsDigit value then value ++ ['p']
    else pyStrip quality
  else if requested_format = "mp3" then
    if pyEndsWith value "kbps".data then value
    else if pyIsDigit value then value ++ "kbps".data
    else pyStrip quality
  else pyStrip quality

theorem normalized_value_fixed (q : PyStr) :
    pyLower (pyStrip (pyLower (pyStrip q))) = pyLower (pyStrip q) := by
  rw [pyStrip_pyLower_comm, pyStrip_idem, pyLower_idem]

theorem digit_append_fixed (value suffixStr : PyStr)
    (hv : pyIsDigit value = true)
    (hs : ∀ c ∈ suffixStr, pyIsSpace c = false ∧ pyLowerChar c = c) :
    pyLower (pyStrip (value ++ suffixStr)) = value ++ suffixStr := by
  have hchars : ∀ c ∈ value ++ suffixStr, pyIsSpace c = false ∧ pyLowerChar c = c := by
    intro c hc
    rcases List.mem_append.mp hc with hc | hc
    · have hd : c.isDigit = true := by
        simp only [pyIsDigit, Bool.and_eq_true, List.all_eq_true] at hv
        exact hv.2 c hc
      exact ⟨pyIsSpace_of_digit hd, pyLowerChar_of_digit hd⟩
    · exact hs c hc
  rw [pyStrip_of_no_space _ (fun c hc => (hchars c hc).1),
    pyLower_of_fixed _ (fun c hc => (hchars c hc).2)]

theorem normalize_idem_mp4 (q : PyStr) :
    _normalize_quality (_normalize_quality q "mp4") "mp4" = _normalize_quality q "mp4" := by
  by_cases h1 : pyEndsWith (pyLower (pyStrip q)) ['p'] = true
  · have e1 : _normalize_quality q "mp4" = pyLower (pyStrip q) := by
      unfold _normalize_quality
      rw [if_pos rfl, if_pos h1]
    rw [e1]
    unfold _normalize_quality
    rw [if_pos rfl, normalized_value_fixed, if_pos h1]
  · by_cases h2 : pyIsDigit (pyLower (pyStrip q)) = true
    · have e1 : _normalize_quality q "mp4" = pyLower (pyStrip q) ++ ['p'] := by
        unfold _normalize_quality
        rw [if_pos rfl, if_neg h1, if_pos h2]
      rw [e1]
      have hfix : pyLower (pyStrip (pyLower (pyStrip q) ++ ['p'])) =
          pyLower (pyStrip q) ++ ['p'] :=
        digit_append_fixed _ _ h2 (by intro c hc; simp at hc; subst hc; exact ⟨by decide, by decide⟩)
      have hend : pyEndsWith (pyLower (pyStrip q) ++ ['p']) ['p'] = true := by
        simp [pyEndsWith]
      unfold _normalize_quality
      rw [if_pos rfl, hfix, if_pos hend]
    · have e1 : _normalize_quality q "mp4" = pyStrip q := by
        unfold _normalize_quality
        rw [if_pos rfl, if_neg h1, if_neg h2]
      rw [e1]
      have hfix : pyLower (pyStrip (pyStrip q)) = pyLower (pyStrip q) := by
        rw [pyStrip_idem]
      unfold _normalize_quality
      rw [if_pos rfl, hfix, if_neg h1, if_neg h2, pyStrip_idem]

theorem normalize_idem_mp3 (q : PyStr) :
    _normalize_quality (_normalize_quality q "mp3") "mp3" = _normalize_quality q "mp3" := by
  have hm : ¬ (("mp3" : String) = "mp4") := by decide
  by_cases h1 : pyEndsWith (pyLower (pyStrip q)) "kbps".data = true
  · have e1 : _normalize_quality q "mp3" = pyLower (pyStrip q) := by
      unfold _normalize_quality
      rw [if_neg hm, if_pos rfl, if_pos h1]
    rw [e1]
    unfold _normalize_quality
    rw [if_neg hm, if_pos rfl, normalized_value_fixed, if_pos h1]
  · by_cases h2 : pyIsDigit (pyLower (pyStrip q)) = true
    · have e1 : _normalize_quality q "mp3" = pyLower (pyStrip q) ++ "kbps".data := by
        unfold _normalize_quality
        rw [if_neg hm, if_pos rfl, if_neg h1, if_pos h2]
      rw [e1]
      have hfix : pyLower (pyStrip (pyLower (pyStrip q) ++ "kbps".data)) =
          pyLower (pyStrip q) ++ "kbps".data := by
        apply digit_append_fixed _ _ h2
        intro c hc
        have : c = 'k' ∨ c = 'b' ∨ c = 'p' ∨ c = 's' := by
          simpa using hc
        rcases this with h | h | h | h <;> subst h <;> exact ⟨by decide, by decide⟩
      have hend : pyEndsWith (pyLower (pyStrip q) ++ "kbps".data) "kbps".data = true := by
        simp [pyEndsWith]
      unfold _normalize_quality
      rw [if_neg hm, if_pos rfl, hfix, if_pos hend]
    · have e1 : _normalize_quality q "mp3" = pyStrip q := by
        unfold _normalize_quality
        rw [if_neg hm, if_pos rfl, if_neg h1, if_neg h2]
      rw [e1]
      have hfix : pyLower (pyStrip (pyStrip q)) = pyLower (pyStrip q) := by
        rw [pyStrip_idem]
      unfold _normalize_quality
      rw [if_neg hm, if_pos rfl, hfix, if_neg h1, if_neg h2, pyStrip_idem]

/-- C8: `_normalize_quality` is idempotent for both supported formats, and in
particular `_normalize_quality "720" "mp4" = "720p"` and
`_normalize_quality "720p" "mp4" = "720p"`. -/
theorem C8_normalize_quality_idempotent (q : PyStr) (f : String)
    (hf : f = "mp4" ∨ f = "mp3") :
    _normalize_quality (_normalize_quality q f) f = _normalize_quality q f ∧
    _normalize_quality ("720".data) "mp4" = "720p".data ∧
    _normalize_quality ("720p".data) "mp4" = "720p".data := by
  refine ⟨?_, by decide, by decide⟩
  rcases hf with hf | hf <;> subst hf
  · exact normalize_idem_mp4 q
  · exact normalize_idem_mp3 q

/-- Witness for C8 at the concrete input `"480"` with format `"mp4"`. -/
theorem C8_normalize_quality_idempotent_witness :
    ("mp4" = "mp4" ∨ "mp4" = "mp3") ∧
    (_normalize_quality (_normalize_quality ("480".data) "mp4") "mp4" =
        _normalize_quality ("480".data) "mp4" ∧
      _normalize_quality ("720".data) "mp4" = "720p".data ∧
      _normalize_quality ("720p".data) "mp4" = "720p".data) :=
  ⟨Or.inl rfl, C8_normalize_quality_idempotent ("480".data) "mp4" (Or.inl rfl)⟩

/-! ## Stream selection (src/main.py lines 541-659)

A pytube stream object is opaque to the selection logic except for its
resolution label; `tag` stands for the rest of the object's identity. -/

/-- A candidate mp4 stream, as seen by the selectors: its `resolution`
attribute (possibly absent) plus an opaque identity. -/
structure StreamCand where
  resolution : Option PyStr
  tag : Nat
  deriving DecidableEq, Repr

/-- The `available` list built by both selectors: candidates whose resolution
label parses to a height, paired with that height
(src/main.py lines 585-589 and 645-649). -/
def availableOf (streams : List StreamCand) : List (Nat × StreamCand) :=
  streams.filterMap (fun s => (_resolution_to_int s.resolution).map (fun h => (h, s)))

/-- Stable insertion for a descending sort by height, matching Python
`list.sort(key=lambda item: item[0], reverse=True)`. -/
def insertDesc (x : Nat × StreamCand) : List (Nat × StreamCand) → List (Nat × StreamCand)
  | [] => [x]
  | y :: ys => if x.1 < y.1 then y :: insertDesc x ys else x :: y :: ys

/-- Stable descending sort by height (Python `available.sort(..., reverse=True)`). -/
def sortDesc : List (Nat × StreamCand) → List (Nat × StreamCand)
  | [] => []
  | x :: xs => insertDesc x (sortDesc xs)

/-- `next(((h, s) for h, s in available if h <= requested_height), available[-1])`
on the descending-sorted list; `none` exactly when `available` is empty
(the code raises before reaching this point in that case). -/
def selectByHeightDesc (available : List (Nat × StreamCand)) (requestedHeight : Nat) :
    Option (Nat × StreamCand) :=
  match (sortDesc available).find? (fun p => p.1 ≤ requestedHeight) with
  | some p => some p
  | none => (sortDesc available).getLast?

/-- `_select_progressive_mp4_stream`: pick the best progressive mp4 stream at
or below the requested height, falling back to the lowest available.
Translated from src/main.py lines 541-599 (the `streams` argument stands for
the provider-supplied progressive mp4 candidates). -/
def _select_progressive_mp4_stream (streams : List StreamCand) (normalized_quality : PyStr) :
    Except String (Nat × StreamCand) :=
  match _resolution_to_int (some normalized_quality) with
  | none => .error "For mp4, quality must be a value like 720p (or numeric like 720)."
  | some requested_height =>
    match selectByHeightDesc (availableOf streams) requested_height with
    | none => .error "No mp4 progressive streams are available for this video."
    | some p => .ok p

/-- `_select_adaptive_mp4_stream`: same selection rule over the adaptive
(video-only) mp4 candidates.  Translated from src/main.py lines 602-659. -/
def _select_adaptive_mp4_stream (streams : List StreamCand) (normalized_quality : PyStr) :
    Except String (Nat × StreamCand) :=
  match _resolution_to_int (some normalized_quality) with
  | none => .error "For mp4, quality must be a value like 1080p (or numeric like 1080)."
  | some requested_height =>
    match selectByHeightDesc (availableOf streams) requested_height with
    | none => .error "No adaptive mp4 video streams are available for this video."
    | some p => .ok p

/-! ### Facts about the descending sort -/

theorem mem_insertDesc (x a : Nat × StreamCand) (l : List (Nat × StreamCand)) :
    a ∈ insertDesc x l ↔ a = x ∨ a ∈ l := by
  induction l with
  | nil => simp [insertDesc]
  | cons y ys ih =>
    simp only [insertDesc]
    split
    · simp only [List.mem_cons, ih]
      tauto
    · simp [List.mem_cons]

theorem mem_sortDesc (a : Nat × StreamCand) (l : List (Nat × StreamCand)) :
    a ∈ sortDesc l ↔ a ∈ l := by
  induction l with
  | nil => simp [sortDesc]
  | cons x xs ih =>
    simp only [sortDesc, mem_insertDesc, ih, List.mem_cons]

theorem sortDesc_eq_nil_iff (l : List (Nat × StreamCand)) :
    sortDesc l = [] ↔ l = [] := by
  cases l with
  | nil => simp [sortDesc]
  | cons x xs =>
    simp only [sortDesc]
    constructor
    · intro h
      have : x ∈ insertDesc x (sortDesc xs) := (mem_insertDesc x x _).mpr (Or.inl rfl)
      rw [h] at this
      simp at this
    · intro h
      exact absurd h (by simp)

theorem pairwise_insertDesc (x : Nat × StreamCand) (l : List (Nat × StreamCand))
    (h : l.Pairwise (fun a b => b.1 ≤ a.1)) :
    (insertDesc x l).Pairwise (fun a b => b.1 ≤ a.1) := by
  induction l with
  | nil => simp [insertDesc]
  | cons y ys ih =>
    simp only [insertDesc]
    rcases List.pairwise_cons.mp h with ⟨hy, hys⟩
    split
    · next hlt =>
      refine List.pairwise_cons.mpr ⟨?_, ih hys⟩
      intro b hb
      rcases (mem_insertDesc x b ys).mp hb with rfl | hb
      · omega
      · exact hy b hb
    · next hge =>
      refine List.pairwise_cons.mpr ⟨?_, h⟩
      intro b hb
      rcases List.mem_cons.mp hb with rfl | hb
      · omega
      · have := hy b hb
        omega

theorem pairwise_sortDesc (l : List (Nat × StreamCand)) :
    (sortDesc l).Pairwise (fun a b => b.1 ≤ a.1) := by
  induction l with
  | nil => simp [sortDesc]
  | cons x xs ih => exact pairwise_insertDesc x (sortDesc xs) ih

theorem find?_le_is_max (H : Nat) (l : List (Nat × StreamCand))
    (hsorted : l.Pairwise (fun a b => b.1 ≤ a.1)) (m : Nat × StreamCand)
    (hfind : l.find? (fun p => p.1 ≤ H) = some m) :
    m ∈ l ∧ m.1 ≤ H ∧ ∀ x ∈ l, x.1 ≤ H → x.1 ≤ m.1 := by
  induction l with
  | nil => simp at hfind
  | cons a t ih =>
    rcases List.pairwise_cons.mp hsorted with ⟨ha, ht⟩
    by_cases hle : a.1 ≤ H
    · rw [List.find?_cons_of_pos _ (by simpa using hle)] at hfind
      obtain rfl : a = m := by simpa using hfind
      refine ⟨by simp, hle, ?_⟩
      intro x hx _
      rcases List.mem_cons.mp hx with rfl | hx
      · exact le_refl _
      · exact ha x hx
    · rw [List.find?_cons_of_neg _ (by simpa using hle)] at hfind
      obtain ⟨hm, hmH, hmax⟩ := ih ht hfind
      refine ⟨List.mem_cons_of_mem _ hm, hmH, ?_⟩
      intro x hx hxH
      rcases List.mem_cons.mp hx with rfl | hx
      · omega
      · exact hmax x hx hxH

theorem getLast?_is_min (l : List (Nat × StreamCand))
    (hsorted : l.Pairwise (fun a b => b.1 ≤ a.1)) (m : Nat × StreamCand)
    (hlast : l.getLast? = some m) :
    m ∈ l ∧ ∀ x ∈ l, m.1 ≤ x.1 := by
  induction l with
  | nil => simp at hlast
  | cons a t ih =>
    rcases List.pairwise_cons.mp hsorted with ⟨ha, ht⟩
    cases t with
    | nil =>
      simp only [List.getLast?_singleton, Option.some.injEq] at hlast
      subst hlast
      exact ⟨by simp, by intro x hx; rcases List.mem_cons.mp hx with rfl | hx <;> simp_all⟩
    | cons b u =>
      rw [List.getLast?_cons_cons] at hlast
      obtain ⟨hm, hmin⟩ := ih ht hlast
      refine ⟨List.mem_cons_of_mem _ hm, ?_⟩
      intro x hx
      rcases List.mem_cons.mp hx with rfl | hx
      · exact ha m hm
      · exact hmin x hx

theorem mem_availableOf (streams : List StreamCand) (h : Nat) (s : StreamCand) :
    (h, s) ∈ availableOf streams ↔
      s ∈ streams ∧ _resolution_to_int s.resolution = some h := by
  simp only [availableOf, List.mem_filterMap]
  constructor
  · rintro ⟨a, ha, hmap⟩
    cases hv : _resolution_to_int a.resolution with
    | none => rw [hv] at hmap; simp at hmap
    | some v =>
      rw [hv] at hmap
      simp only [Option.map, Option.some.injEq, Prod.mk.injEq] at hmap
      obtain ⟨rfl, rfl⟩ := hmap
      exact ⟨ha, hv⟩
  · rintro ⟨hs, hv⟩
    refine ⟨s, hs, ?_⟩
    rw [hv]
    rfl

/-- The heights offered by a candidate list (image of `availableOf`). -/
def heightsOf (streams : List StreamCand) : List Nat :=
  (availableOf streams).map Prod.fst

theorem selectByHeightDesc_spec (available : List (Nat × StreamCand)) (H : Nat)
    (hne : available ≠ []) :
    ∃ p, selectByHeightDesc available H = some p ∧ p ∈ available ∧
      ((∃ x ∈ available, x.1 ≤ H) → p.1 ≤ H ∧ ∀ x ∈ available, x.1 ≤ H → x.1 ≤ p.1) ∧
      ((∀ x ∈ available, ¬ x.1 ≤ H) → ∀ x ∈ available, p.1 ≤ x.1) := by
  unfold selectByHeightDesc
  cases hfind : (sortDesc available).find? (fun p => decide (p.1 ≤ H)) with
  | some p =>
    obtain ⟨hm, hH, hmax⟩ := find?_le_is_max H _ (pairwise_sortDesc _) p hfind
    refine ⟨p, rfl, (mem_sortDesc _ _).mp hm, ?_, ?_⟩
    · intro _
      refine ⟨hH, ?_⟩
      intro x hx hxH
      exact hmax x ((mem_sortDesc _ _).mpr hx) hxH
    · intro hall
      exact absurd hH (hall p ((mem_sortDesc _ _).mp hm))
  | none =>
    cases hlast : (sortDesc available).getLast? with
    | none =>
      exact absurd ((sortDesc_eq_nil_iff _).mp (List.getLast?_eq_none_iff.mp hlast)) hne
    | some m =>
      obtain ⟨hm, hmin⟩ := getLast?_is_min _ (pairwise_sortDesc _) m hlast
      have hnone := List.find?_eq_none.mp hfind
      refine ⟨m, rfl, (mem_sortDesc _ _).mp hm, ?_, ?_⟩
      · rintro ⟨x, hx, hxH⟩
        have := hnone x ((mem_sortDesc _ _).mpr hx)
        simp only [decide_eq_true_eq] at this
        exact absurd hxH this
      · intro _ x hx
        exact hmin x ((mem_sortDesc _ _).mpr hx)

/-- C1: for a normalized quality parsing to height `H` and a candidate list
offering at least one parseable resolution, both `_select_progressive_mp4_stream`
and `_select_adaptive_mp4_stream` return a pair `(h, stream)` whose stream
label parses to `h`, where `h` is the greatest offered height `≤ H` when one
exists and the minimum offered height otherwise. -/
theorem C1_selectors_pick_ceiling_or_min (streams : List StreamCand) (q : PyStr) (H : Nat)
    (hq : _resolution_to_int (some q) = some H)
    (hne : availableOf streams ≠ []) :
    ∃ h s,
      _select_progressive_mp4_stream streams q = .ok (h, s) ∧
      _select_adaptive_mp4_stream streams q = .ok (h, s) ∧
      _resolution_to_int s.resolution = some h ∧
      h ∈ heightsOf streams ∧
      ((∃ x ∈ heightsOf streams, x ≤ H) →
        (h ≤ H ∧ ∀ x ∈ heightsOf streams, x ≤ H → x ≤ h)) ∧
      ((∀ x ∈ heightsOf streams, ¬ x ≤ H) → ∀ x ∈ heightsOf streams, h ≤ x) := by
  obtain ⟨p, hsel, hmem, hceil, hfall⟩ := selectByHeightDesc_spec (availableOf streams) H hne
  refine ⟨p.1, p.2, ?_, ?_, ?_, ?_, ?_, ?_⟩
  · unfold _select_progressive_mp4_stream
    rw [hq]
    simp only [hsel]
  · unfold _select_adaptive_mp4_stream
    rw [hq]
    simp only [hsel]
  · exact ((mem_availableOf streams p.1 p.2).mp (by simpa using hmem)).2
  · exact List.mem_map.mpr ⟨p, hmem, rfl⟩
  · rintro ⟨x, hx, hxH⟩
    obtain ⟨px, hpx, rfl⟩ := List.mem_map.mp hx
    obtain ⟨hH, hmax⟩ := hceil ⟨px, hpx, hxH⟩
    refine ⟨hH, ?_⟩
    intro y hy hyH
    obtain ⟨py, hpy, rfl⟩ := List.mem_map.mp hy
    exact hmax py hpy hyH
  · intro hall y hy
    obtain ⟨py, hpy, rfl⟩ := List.mem_map.mp hy
    refine hfall ?_ py hpy
    intro z hz
    exact hall z.1 (List.mem_map.mpr ⟨z, hz, rfl⟩)

/-- Witness for C1: heights {360, 720, 480}, request `1080p`; the ceiling rule
selects 720. -/
theorem C1_selectors_pick_ceiling_or_min_witness :
    (_resolution_to_int (some ("1080p".data)) = some 1080 ∧
      availableOf [⟨some ("360p".data), 0⟩, ⟨some ("720p".data), 1⟩,
        ⟨some ("480p".data), 2⟩] ≠ []) ∧
    (∃ h s,
      _select_progressive_mp4_stream
          [⟨some ("360p".data), 0⟩, ⟨some ("720p".data), 1⟩, ⟨some ("480p".data), 2⟩]
          ("1080p".data) = .ok (h, s) ∧
      _select_adaptive_mp4_stream
          [⟨some ("360p".data), 0⟩, ⟨some ("720p".data), 1⟩, ⟨some ("480p".data), 2⟩]
          ("1080p".data) = .ok (h, s) ∧
      _resolution_to_int s.resolution = some h ∧
      h ∈ heightsOf [⟨some ("360p".data), 0⟩, ⟨some ("720p".data), 1⟩,
        ⟨some ("480p".data), 2⟩] ∧
      ((∃ x ∈ heightsOf [⟨some ("360p".data), 0⟩, ⟨some ("720p".data), 1⟩,
          ⟨some ("480p".data), 2⟩], x ≤ 1080) →
        (h ≤ 1080 ∧ ∀ x ∈ heightsOf [⟨some ("360p".data), 0⟩, ⟨some ("720p".data), 1⟩,
          ⟨some ("480p".data), 2⟩], x ≤ 1080 → x ≤ h)) ∧
      ((∀ x ∈ heightsOf [⟨some ("360p".data), 0⟩, ⟨some ("720p".data), 1⟩,
          ⟨some ("480p".data), 2⟩], ¬ x ≤ 1080) →
        ∀ x ∈ heightsOf [⟨some ("360p".data), 0⟩, ⟨some ("720p".data), 1⟩,
          ⟨some ("480p".data), 2⟩], h ≤ x)) :=
  ⟨⟨by decide, by decide⟩,
    C1_selectors_pick_ceiling_or_min _ _ 1080 (by decide) (by decide)⟩

/-! ## mp4 orchestration: progressive vs adaptive (src/main.py lines 929-1038) -/

/-- The mp4 branch of `_download_with_pytube`, reduced to the decision C2 is
about: `.ok true` means the adaptive merge pipeline (ffmpeg resolution,
adaptive video+audio download, mux — lines 985-1010) is invoked, `.ok false`
means the progressive single-file path is used.  `use_adaptive` starts as
`requested_height > 720` and flips to `True` when progressive selection
raises (lines 936-945). -/
def mp4_branch_uses_merge (progressive_streams : List StreamCand)
    (normalized_quality : PyStr) : Except String Bool :=
  match _resolution_to_int (some normalized_quality) with
  | none => .error "For mp4, quality must be a value like 720p (or numeric like 720)."
  | some requested_height =>
    if 720 < requested_height then .ok true
    else
      match _select_progressive_mp4_stream progressive_streams normalized_quality with
      | .ok _ => .ok false
      | .error _ => .ok true

deriving instance DecidableEq for Except

/-- C2 counterexample: quality `720p` parses to height 720 ≤ 720, yet when no
progressive stream is available the orchestrator falls back to the adaptive
merge pipeline, so a request at height ≤ 720 can invoke it. -/
theorem C2_merge_threshold_counterexample :
    _resolution_to_int (some ("720p".data)) = some 720 ∧ 720 ≤ 720 ∧
    mp4_branch_uses_merge [] ("720p".data) = .ok true ∧
    ¬ mp4_branch_uses_merge [] ("720p".data) = .ok false := by
  refine ⟨by decide, by decide, by decide, by decide⟩

/-- C2 (amended): a request parsing to height > 720 always invokes the merge
pipeline; a request parsing to height ≤ 720 never invokes it when progressive
selection succeeds, and falls back to it when progressive selection fails. -/
theorem C2_merge_threshold_amended (streams : List StreamCand) (q : PyStr) (H : Nat)
    (hq : _resolution_to_int (some q) = some H) :
    (720 < H → mp4_branch_uses_merge streams q = .ok true) ∧
    (H ≤ 720 → ∀ p, _select_progressive_mp4_stream streams q = .ok p →
      mp4_branch_uses_merge streams q = .ok false) ∧
    (H ≤ 720 → ∀ e, _select_progressive_mp4_stream streams q = .error e →
      mp4_branch_uses_merge streams q = .ok true) := by
  refine ⟨?_, ?_, ?_⟩
  · intro hH
    unfold mp4_branch_uses_merge
    rw [hq]
    simp only [if_pos hH]
  · intro hH p hp
    unfold mp4_branch_uses_merge
    rw [hq]
    have hn : ¬ 720 < H := by omega
    simp only [if_neg hn, hp]
  · intro hH e he
    unfold mp4_branch_uses_merge
    rw [hq]
    have hn : ¬ 720 < H := by omega
    simp only [if_neg hn, he]

/-- Witness for C2 (amended): at quality `1080p` (height 1080 > 720) over a
single 1080p candidate, the merge pipeline is invoked. -/
theorem C2_merge_threshold_amended_witness :
    mp4_branch_uses_merge [⟨some ("1080p".data), 0⟩] ("1080p".data) = .ok true :=
  (C2_merge_threshold_amended [⟨some ("1080p".data), 0⟩] ("1080p".data) 1080
    (by decide)).1 (by decide)

/-! ## Task records and the worker state machine (src/main.py lines 1235-1415) -/

/-- The result dictionary produced by a successful `_download_with_pytube`
run.  Its fields depend only on provider data the registry logic never
inspects, so a single opaque field stands for the whole dictionary. -/
structure DlResult where
  payload : Nat
  deriving DecidableEq, Repr

/-- Task statuses stored in the registry. -/
inductive TStatus
  | queued
  | in_progress
  | completed
  | failed
  deriving DecidableEq, Repr

/-- One per-item outcome recorded by the batch branch of `_download_worker`
(lines 1262-1283): the item's index, its status, and its result or error. -/
structure ItemOutcome where
  index : Nat
  status : TStatus
  result : Option DlResult
  error : Option String
  deriving DecidableEq, Repr

/-- The summary block of a batch result (lines 1290-1294). -/
structure BatchSummary where
  total : Nat
  completed : Nat
  failed : Nat
  deriving DecidableEq, Repr

/-- The `result` field of a task record: a single download's result
dictionary or a batch items+summary block. -/
inductive TaskResult
  | single (r : DlResult)
  | batch (items : List ItemOutcome) (summary : BatchSummary)
  deriving DecidableEq, Repr

/-- One task record in the `jobs` registry (the fields the claims are about;
`created_at`/`updated_at` are display-only strings and are omitted). -/
structure TaskRecord where
  status : TStatus
  result : Option TaskResult
  error : Option String
  finished_at_unix : Option Int
  deriving DecidableEq, Repr

/-- Record created by the `download` endpoint (lines 1376-1382): queued,
no result, no error, no finish time. -/
def createTask : TaskRecord := ⟨.queued, none, none, none⟩

/-- First worker write (lines 1249-1252). -/
def markInProgress (t : TaskRecord) : TaskRecord := { t with status := .in_progress }

/-- The batch loop of `_download_worker` (lines 1256-1283), folded over the
per-item orchestrator outcomes starting at index `i`: returns the
`item_results` list and the `completed_count` and `failed_count` counters. -/
def batchLoop : Nat → List (Except String DlResult) → List ItemOutcome × Nat × Nat
  | _, [] => ([], 0, 0)
  | i, .ok r :: rest =>
    let t := batchLoop (i + 1) rest
    (⟨i, .completed, some r, none⟩ :: t.1, t.2.1 + 1, t.2.2)
  | i, .error e :: rest =>
    let t := batchLoop (i + 1) rest
    (⟨i, .failed, none, some e⟩ :: t.1, t.2.1, t.2.2 + 1)

/-- Terminal write of the batch branch (lines 1285-1297): always
`completed`, with the items list and summary as the result. -/
def completeBatch (t : TaskRecord) (outcomes : List (Except String DlResult))
    (now : Int) : TaskRecord :=
  { t with
    status := .completed,
    result := some (.batch (batchLoop 0 outcomes).1
      ⟨outcomes.length, (batchLoop 0 outcomes).2.1, (batchLoop 0 outcomes).2.2⟩),
    finished_at_unix := some now }

/-- Single-item success write (lines 1302-1311). -/
def completeSingle (t : TaskRecord) (r : DlResult) (now : Int) : TaskRecord :=
  { t with status := .completed, result := some (.single r), finished_at_unix := some now }

/-- Single-item failure write (lines 1313-1319). -/
def failSingle (t : TaskRecord) (e : String) (now : Int) : TaskRecord :=
  { t with status := .failed, error := some e, finished_at_unix := some now }

/-- Thread-start failure write in `download` (lines 1393-1399). -/
def failThreadStart (t : TaskRecord) (e : String) (now : Int) : TaskRecord :=
  { t with
    status := .failed,
    error := some ("Failed to start download worker: " ++ e),
    finished_at_unix := some now }

/-- A validated payload as seen by `_download_worker`, with each item's
`_download_with_pytube` run abstracted by its outcome. -/
inductive WorkerPayload
  | single (outcome : Except String DlResult)
  | batch (outcomes : List (Except String DlResult))
  deriving DecidableEq, Repr

/-- Statuses `_download_worker` writes to its task's record, in order
(lines 1249-1319): `in_progress` first, then exactly one terminal status
(`completed` for every batch, `completed`/`failed` for a single item). -/
def workerStatusWrites : WorkerPayload → List TStatus
  | .batch _ => [.in_progress, .completed]
  | .single (.ok _) => [.in_progress, .completed]
  | .single (.error _) => [.in_progress, .failed]

/-- Statuses written to one task's record by the `download` endpoint and its
worker, in order: the record is created `queued` (lines 1376-1382); if
`Thread.start` succeeds the worker writes follow; if it raises, the endpoint
writes `failed` directly (lines 1385-1399). -/
def taskStatusWrites (threadStart : Except String Unit) (p : WorkerPayload) : List TStatus :=
  TStatus.queued ::
    (match threadStart with
     | .ok _ => workerStatusWrites p
     | .error _ => [.failed])

/-- C3 counterexample: when the worker thread fails to start, the task's
status sequence is `queued, failed` — the record jumps from `queued`
directly to a terminal status, skipping `in_progress`, so the claimed
strict ordering does not hold for every task. -/
theorem C3_status_order_counterexample :
    taskStatusWrites (.error "cannot start new thread") (.single (.ok ⟨0⟩)) =
      [.queued, .failed] ∧
    ¬ (taskStatusWrites (.error "cannot start new thread") (.single (.ok ⟨0⟩)) =
        [.queued, .in_progress, .completed] ∨
      taskStatusWrites (.error "cannot start new thread") (.single (.ok ⟨0⟩)) =
        [.queued, .in_progress, .failed]) := by
  refine ⟨by decide, by decide⟩

/-- C3 (amended): the statuses written to a task's record are exactly
`queued, in_progress, completed`, or `queued, in_progress, failed`, or —
only when the worker thread fails to start — `queued, failed`.  In every
case statuses never move backwards, exactly one terminal status is written,
it is written last, and a terminal status is never overwritten. -/
theorem C3_status_order_amended (ts : Except String Unit) (p : WorkerPayload) :
    taskStatusWrites ts p = [.queued, .in_progress, .completed] ∨
    taskStatusWrites ts p = [.queued, .in_progress, .failed] ∨
    (∃ e, ts = .error e ∧ taskStatusWrites ts p = [.queued, .failed]) := by
  cases ts with
  | ok u =>
    cases p with
    | single o =>
      cases o with
      | ok r => exact Or.inl rfl
      | error e => exact Or.inr (Or.inl rfl)
    | batch os => exact Or.inl rfl
  | error e => exact Or.inr (Or.inr ⟨e, rfl, rfl⟩)

/-- Witness for C3 (amended) at a concrete failing single download with a
successfully started worker thread. -/
theorem C3_status_order_amended_witness :
    taskStatusWrites (.ok ()) (.single (.error "boom")) =
        [.queued, .in_progress, .completed] ∨
    taskStatusWrites (.ok ()) (.single (.error "boom")) =
        [.queued, .in_progress, .failed] ∨
    (∃ e, (Except.ok () : Except String Unit) = .error e ∧
      taskStatusWrites (.ok ()) (.single (.error "boom")) = [.queued, .failed]) :=
  C3_status_order_amended (.ok ()) (.single (.error "boom"))

/-- All task records reachable through the operations the code performs on a
registry entry: creation, the worker's transitions, and the endpoint's
thread-start-failure handling. -/
inductive ReachableTask : TaskRecord → Prop
  | created : ReachableTask createTask
  | started : ReachableTask (markInProgress createTask)
  | batchDone (outcomes : List (Except String DlResult)) (now : Int) :
      ReachableTask (completeBatch (markInProgress createTask) outcomes now)
  | singleDone (r : DlResult) (now : Int) :
      ReachableTask (completeSingle (markInProgress createTask) r now)
  | singleFailed (e : String) (now : Int) :
      ReachableTask (failSingle (markInProgress createTask) e now)
  | startFailed (e : String) (now : Int) :
      ReachableTask (failThreadStart createTask e now)

/-- C4: every reachable task record satisfies the registry invariant:
completed implies a result and no error, failed implies an error and no
result, and `finished_at_unix` is present iff the status is terminal. -/
theorem C4_record_invariant (t : TaskRecord) (h : ReachableTask t) :
    (t.status = .completed → (t.result.isSome = true ∧ t.error = none)) ∧
    (t.status = .failed → (t.error.isSome = true ∧ t.result = none)) ∧
    (t.finished_at_unix.isSome = true ↔ (t.status = .completed ∨ t.status = .failed)) := by
  cases h <;>
    simp [createTask, markInProgress, completeBatch, completeSingle,
      failSingle, failThreadStart]

/-- Witness for C4: the record of a completed single download is reachable,
and the invariant instantiated at it gives a populated result and no error. -/
theorem C4_record_invariant_witness :
    (completeSingle (markInProgress createTask) ⟨7⟩ 100).result.isSome = true ∧
    (completeSingle (markInProgress createTask) ⟨7⟩ 100).error = none :=
  (C4_record_invariant (completeSingle (markInProgress createTask) ⟨7⟩ 100)
    (ReachableTask.singleDone ⟨7⟩ 100)).1 rfl

/-! ## C5: batch isolation -/

theorem batchLoop_length (i : Nat) (outcomes : List (Except String DlResult)) :
    (batchLoop i outcomes).1.length = outcomes.length := by
  induction outcomes generalizing i with
  | nil => rfl
  | cons o rest ih =>
    cases o with
    | ok r => simpa [batchLoop] using ih (i + 1)
    | error e => simpa [batchLoop] using ih (i + 1)

theorem batchLoop_getElem (i : Nat) (outcomes : List (Except String DlResult)) (k : Nat) :
    (batchLoop i outcomes).1[k]? = (outcomes[k]?).map (fun o =>
      match o with
      | .ok r => ⟨i + k, .completed, some r, none⟩
      | .error e => ⟨i + k, .failed, none, some e⟩) := by
  induction outcomes generalizing i k with
  | nil => simp [batchLoop]
  | cons o rest ih =>
    cases k with
    | zero => cases o <;> simp [batchLoop]
    | succ k =>
      cases o with
      | ok r =>
        simp only [batchLoop, List.getElem?_cons_succ]
        rw [ih (i + 1) k]
        have : i + 1 + k = i + (k + 1) := by omega
        rw [this]
      | error e =>
        simp only [batchLoop, List.getElem?_cons_succ]
        rw [ih (i + 1) k]
        have : i + 1 + k = i + (k + 1) := by omega
        rw [this]

/-- C5: the batch branch of `_download_worker` processes every item, records
one outcome per item carrying that item's index and its result or error
message, and always marks the batch task `completed` with no task-level
error — even when every item fails. -/
theorem C5_batch_isolation (outcomes : List (Except String DlResult)) (now : Int) :
    (completeBatch (markInProgress createTask) outcomes now).status = .completed ∧
    (completeBatch (markInProgress createTask) outcomes now).error = none ∧
    (completeBatch (markInProgress createTask) outcomes now).result =
      some (.batch (batchLoop 0 outcomes).1
        ⟨outcomes.length, (batchLoop 0 outcomes).2.1, (batchLoop 0 outcomes).2.2⟩) ∧
    (batchLoop 0 outcomes).1.length = outcomes.length ∧
    (∀ (k : Nat) (r : DlResult), outcomes[k]? = some (Except.ok r) →
      (batchLoop 0 outcomes).1[k]? = some (ItemOutcome.mk k .completed (some r) none)) ∧
    (∀ (k : Nat) (e : String), outcomes[k]? = some (Except.error e) →
      (batchLoop 0 outcomes).1[k]? = some (ItemOutcome.mk k .failed none (some e))) := by
  refine ⟨rfl, rfl, rfl, batchLoop_length 0 outcomes, ?_, ?_⟩
  · intro k r hk
    rw [batchLoop_getElem 0 outcomes k, hk]
    simp
  · intro k e hk
    rw [batchLoop_getElem 0 outcomes k, hk]
    simp

/-! ## `_resolve_unique_path` (src/main.py lines 376-405) -/

/-- Decimal rendering of a natural number (Python `f"{counter}"`), with
structural fuel; `natDecimal` below supplies sufficient fuel. -/
def natDecimalAux : Nat → Nat → PyStr
  | 0, _ => []
  | fuel + 1, n =>
    if n < 10 then [Char.ofNat (48 + n)]
    else natDecimalAux fuel (n / 10) ++ [Char.ofNat (48 + n % 10)]

/-- Decimal rendering of a natural number, as Python string formatting
produces it. -/
def natDecimal (n : Nat) : PyStr := natDecimalAux (n + 1) n

theorem pyDigitsVal_natDecimalAux (fuel : Nat) :
    ∀ n, n < fuel → pyDigitsVal (natDecimalAux fuel n) = n := by
  induction fuel with
  | zero => intro n h; omega
  | succ fuel ih =>
    intro n h
    rw [natDecimalAux]
    by_cases h10 : n < 10
    · rw [if_pos h10]
      have hval : (Char.ofNat (48 + n)).toNat = 48 + n :=
        char_toNat_ofNat_valid (Or.inl (by omega))
      simp only [pyDigitsVal, List.foldl_cons, List.foldl_nil, hval]
      omega
    · rw [if_neg h10]
      have hdiv : n / 10 < fuel := by omega
      have hval : (Char.ofNat (48 + n % 10)).toNat = 48 + n % 10 :=
        char_toNat_ofNat_valid (Or.inl (by omega))
      have happ : pyDigitsVal (natDecimalAux fuel (n / 10) ++ [Char.ofNat (48 + n % 10)]) =
          pyDigitsVal (natDecimalAux fuel (n / 10)) * 10 +
            ((Char.ofNat (48 + n % 10)).toNat - 48) := by
        simp [pyDigitsVal, List.foldl_append]
      rw [happ, ih (n / 10) hdiv, hval]
      omega

theorem pyDigitsVal_natDecimal (n : Nat) : pyDigitsVal (natDecimal n) = n :=
  pyDigitsVal_natDecimalAux (n + 1) n (by omega)

theorem natDecimal_injective : Function.Injective natDecimal := by
  intro a b h
  have := congrArg pyDigitsVal h
  rwa [pyDigitsVal_natDecimal, pyDigitsVal_natDecimal] at this

/-- The k-th candidate name tried by `_resolve_unique_path`: `stem ++ suffix`
for k = 0, then `stem ++ " (k)" ++ suffix` for k ≥ 1 (the f-string at
src/main.py line 402). -/
def uniqueCandidate (stem suffixStr : PyStr) (k : Nat) : PyStr :=
  if k = 0 then stem ++ suffixStr
  else stem ++ (' ' :: '(' :: natDecimal k) ++ [')'] ++ suffixStr

theorem uniqueCandidate_injOn_pos (stem suffixStr : PyStr) (j k : Nat)
    (hj : j ≠ 0) (hk : k ≠ 0)
    (h : uniqueCandidate stem suffixStr j = uniqueCandidate stem suffixStr k) :
    j = k := by
  unfold uniqueCandidate at h
  rw [if_neg hj, if_neg hk] at h
  apply natDecimal_injective
  have h2 : (' ' :: '(' :: natDecimal j) ++ ([')'] ++ suffixStr) =
      (' ' :: '(' :: natDecimal k) ++ ([')'] ++ suffixStr) := by
    have := List.append_cancel_left
      (by simpa [List.append_assoc] using h :
        stem ++ ((' ' :: '(' :: natDecimal j) ++ ([')'] ++ suffixStr)) =
        stem ++ ((' ' :: '(' :: natDecimal k) ++ ([')'] ++ suffixStr)))
    exact this
  have h3 : natDecimal j ++ ([')'] ++ suffixStr) = natDecimal k ++ ([')'] ++ suffixStr) := by
    simpa using h2
  exact List.append_cancel_right h3

/-- The `while True` loop of `_resolve_unique_path` (lines 400-405), with
explicit fuel standing for the unbounded iteration: try
`stem (counter)suffix`, incrementing `counter`, until a name not present in
the directory is found. -/
def resolveUniqueLoop (directory : List PyStr) (stem suffixStr : PyStr) :
    Nat → Nat → Option PyStr
  | _, 0 => none
  | counter, fuel + 1 =>
    if uniqueCandidate stem suffixStr counter ∈ directory then
      resolveUniqueLoop directory stem suffixStr (counter + 1) fuel
    else some (uniqueCandidate stem suffixStr counter)

/-- `_resolve_unique_path(directory, stem, suffix)`: return the first
candidate name not already present.  The filesystem directory is modelled by
the finite list of names it contains; `directory.length + 1` loop steps
always suffice (pigeonhole, `C6_resolve_unique_path_first_free`), so the
fuel is never exhausted.  Translated from src/main.py lines 376-405. -/
def _resolve_unique_path (directory : List PyStr) (stem suffixStr : PyStr) : Option PyStr :=
  if uniqueCandidate stem suffixStr 0 ∈ directory then
    resolveUniqueLoop directory stem suffixStr 1 (directory.length + 1)
  else some (uniqueCandidate stem suffixStr 0)

theorem resolveUniqueLoop_none (directory : List PyStr) (stem suffixStr : PyStr)
    (fuel : Nat) :
    ∀ counter, resolveUniqueLoop directory stem suffixStr counter fuel = none →
      ∀ j < fuel, uniqueCandidate stem suffixStr (counter + j) ∈ directory := by
  induction fuel with
  | zero => intro counter _ j hj; omega
  | succ fuel ih =>
    intro counter h j hj
    rw [resolveUniqueLoop] at h
    by_cases hmem : uniqueCandidate stem suffixStr counter ∈ directory
    · rw [if_pos hmem] at h
      cases j with
      | zero => simpa using hmem
      | succ j =>
        have := ih (counter + 1) h j (by omega)
        have harith : counter + 1 + j = counter + (j + 1) := by omega
        rwa [harith] at this
    · rw [if_neg hmem] at h
      exact absurd h (by simp)

theorem resolveUniqueLoop_some (directory : List PyStr) (stem suffixStr : PyStr)
    (fuel : Nat) :
    ∀ counter res, resolveUniqueLoop directory stem suffixStr counter fuel = some res →
      ∃ j < fuel, res = uniqueCandidate stem suffixStr (counter + j) ∧
        uniqueCandidate stem suffixStr (counter + j) ∉ directory ∧
        ∀ i < j, uniqueCandidate stem suffixStr (counter + i) ∈ directory := by
  induction fuel with
  | zero => intro counter res h; simp [resolveUniqueLoop] at h
  | succ fuel ih =>
    intro counter res h
    rw [resolveUniqueLoop] at h
    by_cases hmem : uniqueCandidate stem suffixStr counter ∈ directory
    · rw [if_pos hmem] at h
      obtain ⟨j, hj, hres, hout, hall⟩ := ih (counter + 1) res h
      refine ⟨j + 1, by omega, ?_, ?_, ?_⟩
      · rwa [show counter + (j + 1) = counter + 1 + j by omega]
      · rwa [show counter + (j + 1) = counter + 1 + j by omega]
      · intro i hi
        cases i with
        | zero => simpa using hmem
        | succ i =>
          have := hall i (by omega)
          rwa [show counter + 1 + i = counter + (i + 1) by omega] at this
    · rw [if_neg hmem] at h
      refine ⟨0, by omega, ?_, by simpa using hmem, by omega⟩
      simpa using h.symm

theorem resolveUniqueLoop_terminates (directory : List PyStr) (stem suffixStr : PyStr) :
    resolveUniqueLoop directory stem suffixStr 1 (directory.length + 1) ≠ none := by
  intro hnone
  have hall := resolveUniqueLoop_none directory stem suffixStr (directory.length + 1) 1 hnone
  have hsub : ((List.range (directory.length + 1)).map
      (fun i => uniqueCandidate stem suffixStr (1 + i))) ⊆ directory := by
    intro x hx
    obtain ⟨i, hi, rfl⟩ := List.mem_map.mp hx
    exact hall i (List.mem_range.mp hi)
  have hnodup : ((List.range (directory.length + 1)).map
      (fun i => uniqueCandidate stem suffixStr (1 + i))).Nodup := by
    refine (List.nodup_range _).map_on ?_
    intro a ha b hb hab
    have := uniqueCandidate_injOn_pos stem suffixStr (1 + a) (1 + b)
      (by omega) (by omega) hab
    omega
  have hlen := (List.subperm_of_subset hnodup hsub).length_le
  simp at hlen

/-- C6: `_resolve_unique_path` returns exactly the first name of the sequence
`stem+suffix`, `stem (1)+suffix`, `stem (2)+suffix`, … that is not already in
the directory (so an existing file is never chosen), and in particular
requesting `name` + `.mp4` twice yields `name.mp4`, then `name (1).mp4`. -/
theorem C6_resolve_unique_path_first_free (directory : List PyStr)
    (stem suffixStr : PyStr) :
    (∃ k, _resolve_unique_path directory stem suffixStr =
        some (uniqueCandidate stem suffixStr k) ∧
      uniqueCandidate stem suffixStr k ∉ directory ∧
      ∀ j < k, uniqueCandidate stem suffixStr j ∈ directory) ∧
    _resolve_unique_path [] ("name".data) (".mp4".data) = some ("name.mp4".data) ∧
    _resolve_unique_path [("name.mp4".data)] ("name".data) (".mp4".data) =
      some ("name (1).mp4".data) := by
  refine ⟨?_, by decide, by decide⟩
  unfold _resolve_unique_path
  by_cases h0 : uniqueCandidate stem suffixStr 0 ∈ directory
  · rw [if_pos h0]
    cases hres : resolveUniqueLoop directory stem suffixStr 1 (directory.length + 1) with
    | none => exact absurd hres (resolveUniqueLoop_terminates directory stem suffixStr)
    | some res =>
      obtain ⟨j, hj, rfl, hout, hall⟩ :=
        resolveUniqueLoop_some directory stem suffixStr (directory.length + 1) 1 res hres
      refine ⟨1 + j, rfl, hout, ?_⟩
      intro j' hj'
      cases j' with
      | zero => exact h0
      | succ i =>
        have := hall i (by omega)
        rwa [show 1 + i = i + 1 by omega] at this
  · rw [if_neg h0]
    exact ⟨0, rfl, h0, by omega⟩

/-! ## Retention sweep (src/main.py lines 466-507) -/

/-- The retention window in seconds: configured minutes times 60,
floor-clamped to 60 seconds (`max(60, TASK_RETENTION_MINUTES * 60)`,
src/main.py line 477). -/
def retentionSeconds (taskRetentionMinutes : Nat) : Nat :=
  max 60 (taskRetentionMinutes * 60)

/-- The eviction test one sweep cycle applies to a task (lines 491-499):
status is `completed` or `failed`, `finished_at_unix` is a number, and
`now - finished_at >= retention_seconds`. -/
def removableTask (now : Int) (retentionSecs : Nat) (t : TaskRecord) : Bool :=
  (t.status == .completed || t.status == .failed) &&
    (match t.finished_at_unix with
     | some f => decide ((retentionSecs : Int) ≤ now - f)
     | none => false)

/-- One sweep cycle of `_cleanup_finished_jobs_forever` over the registry
(modelled as an association list): collect removable task ids under the
lock and pop them (lines 486-503). -/
def cleanupSweep (now : Int) (retentionSecs : Nat)
    (jobs : List (String × TaskRecord)) : List (String × TaskRecord) :=
  jobs.filter (fun kv => !(removableTask now retentionSecs kv.2))

/-- C7: after one sweep cycle with the clamped retention window, every
terminal task whose `finished_at_unix` is at least the window old is absent;
every task with a newer `finished_at_unix` persists; and `queued` or
`in_progress` tasks are never evicted regardless of age. -/
theorem C7_retention_sweep (now : Int) (mins : Nat)
    (jobs : List (String × TaskRecord)) (id : String) (t : TaskRecord)
    (hmem : (id, t) ∈ jobs) :
    (∀ f : Int, (t.status = .completed ∨ t.status = .failed) →
      t.finished_at_unix = some f →
      (retentionSeconds mins : Int) ≤ now - f →
      (id, t) ∉ cleanupSweep now (retentionSeconds mins) jobs) ∧
    (∀ f : Int, t.finished_at_unix = some f →
      now - f < (retentionSeconds mins : Int) →
      (id, t) ∈ cleanupSweep now (retentionSeconds mins) jobs) ∧
    ((t.status = .queued ∨ t.status = .in_progress) →
      (id, t) ∈ cleanupSweep now (retentionSeconds mins) jobs) := by
  refine ⟨?_, ?_, ?_⟩
  · intro f hstatus hfin hold hin
    have := (List.mem_filter.mp hin).2
    rw [Bool.not_eq_eq_eq_not, Bool.not_true] at this
    apply absurd this
    simp only [removableTask, hfin, Bool.and_eq_false_iff, not_or]
    rcases hstatus with h | h <;>
      simp [h, decide_eq_true_eq, hold]
  · intro f hfin hnew
    refine List.mem_filter.mpr ⟨hmem, ?_⟩
    have hdec : decide ((retentionSeconds mins : Int) ≤ now - f) = false := by
      simp only [decide_eq_false_iff_not]
      omega
    simp [removableTask, hfin, hdec]
  · intro hstatus
    refine List.mem_filter.mpr ⟨hmem, ?_⟩
    rcases hstatus with h | h <;> simp [removableTask, h]

/-- Witness for C7: an old completed task is evicted, a fresh one persists,
and an old in-progress task persists, in a three-task registry with the
default 30-minute window. -/
theorem C7_retention_sweep_witness :
    (("a", TaskRecord.mk .completed none none (some 0)) ∈
        [("a", TaskRecord.mk .completed none none (some 0)),
         ("b", TaskRecord.mk .completed none none (some 9000)),
         ("c", TaskRecord.mk .in_progress none none none)]) ∧
    (("a", TaskRecord.mk .completed none none (some 0)) ∉
        cleanupSweep 10000 (retentionSeconds 30)
          [("a", TaskRecord.mk .completed none none (some 0)),
           ("b", TaskRecord.mk .completed none none (some 9000)),
           ("c", TaskRecord.mk .in_progress none none none)]) ∧
    (("b", TaskRecord.mk .completed none none (some 9000)) ∈
        cleanupSweep 10000 (retentionSeconds 30)
          [("a", TaskRecord.mk .completed none none (some 0)),
           ("b", TaskRecord.mk .completed none none (some 9000)),
           ("c", TaskRecord.mk .in_progress none none none)]) ∧
    (("c", TaskRecord.mk .in_progress none none none) ∈
        cleanupSweep 10000 (retentionSeconds 30)
          [("a", TaskRecord.mk .completed none none (some 0)),
           ("b", TaskRecord.mk .completed none none (some 9000)),
           ("c", TaskRecord.mk .in_progress none none none)]) := by
  refine ⟨by decide, ?_, ?_, ?_⟩
  · exact (C7_retention_sweep 10000 30 _ "a" _ (by decide)).1 0
      (Or.inl rfl) rfl (by decide)
  · exact (C7_retention_sweep 10000 30 _ "b" _ (by decide)).2.1 9000 rfl (by decide)
  · exact (C7_retention_sweep 10000 30 _ "c" _ (by decide)).2.2 (Or.inr rfl)

/-! ## `_select_audio_stream` (src/main.py lines 805-840) -/

/-- An audio stream candidate as seen by mp3 selection: its `abr` bitrate
label (possibly absent) plus an opaque identity. -/
structure AudioStream where
  abr : Option PyStr
  tag : Nat
  deriving DecidableEq, Repr

/-- `_select_audio_stream(yt, normalized_quality)`: filter the audio streams
to those whose `abr` label equals the normalized quality exactly and take the
first (pytube's `order_by("abr").desc()` permutes a constant-key list
stably, so `.first()` is the first exact match); raise a not-found error when
none matches.  Translated from src/main.py lines 805-840. -/
def _select_audio_stream (audio_streams : List AudioStream)
    (normalized_quality : PyStr) : Except String AudioStream :=
  match (audio_streams.filter (fun s => s.abr == some normalized_quality)).head? with
  | some s => .ok s
  | none => .error "No audio stream found for the requested quality."

/-- C9: mp3 audio selection accepts only a stream whose bitrate label equals
the normalized requested quality exactly — no ceiling or fallback pick — and
fails with a not-found error when no such stream exists. -/
theorem C9_audio_exact_match (audio_streams : List AudioStream) (nq : PyStr) :
    (∀ s, _select_audio_stream audio_streams nq = .ok s →
      s ∈ audio_streams ∧ s.abr = some nq) ∧
    ((∀ s ∈ audio_streams, s.abr ≠ some nq) →
      _select_audio_stream audio_streams nq =
        .error "No audio stream found for the requested quality.") := by
  constructor
  · intro s hs
    unfold _select_audio_stream at hs
    cases hh : (audio_streams.filter (fun s => s.abr == some nq)).head? with
    | none => rw [hh] at hs; exact absurd hs (by simp)
    | some s' =>
      rw [hh] at hs
      simp only [Except.ok.injEq] at hs
      subst hs
      have hmem := List.mem_of_mem_head? hh
      have := List.mem_filter.mp hmem
      exact ⟨this.1, by simpa using this.2⟩
  · intro hnone
    unfold _select_audio_stream
    have hfil : audio_streams.filter (fun s => s.abr == some nq) = [] := by
      rw [List.filter_eq_nil_iff]
      intro s hs
      simpa using hnone s hs
    rw [hfil]
    rfl

/-- Witness for C9: with streams labelled 128kbps and 160kbps, requesting
`128kbps` selects the exact match, which the theorem shows carries exactly
that label. -/
theorem C9_audio_exact_match_witness :
    (⟨some ("128kbps".data), 0⟩ : AudioStream) ∈
        [(⟨some ("128kbps".data), 0⟩ : AudioStream), ⟨some ("160kbps".data), 1⟩] ∧
    (⟨some ("128kbps".data), 0⟩ : AudioStream).abr = some ("128kbps".data) :=
  (C9_audio_exact_match
      [(⟨some ("128kbps".data), 0⟩ : AudioStream), ⟨some ("160kbps".data), 1⟩]
      ("128kbps".data)).1 ⟨some ("128kbps".data), 0⟩ (by decide)

/-- Witness for C5 at a concrete two-item batch with one success and one
failure: the task completes and the failing item's outcome carries its index
and error. -/
theorem C5_batch_isolation_witness :
    (completeBatch (markInProgress createTask)
        [Except.ok ⟨1⟩, Except.error "boom"] 50).status = .completed ∧
    (batchLoop 0 [Except.ok ⟨1⟩, Except.error "boom"]).1[1]? =
      some (ItemOutcome.mk 1 .failed none (some "boom")) :=
  ⟨(C5_batch_isolation [Except.ok ⟨1⟩, Except.error "boom"] 50).1,
    (C5_batch_isolation [Except.ok ⟨1⟩, Except.error "boom"] 50).2.2.2.2.2 1 "boom" rfl⟩

/-- Witness for C6 at a directory already containing `name.mp4`. -/
theorem C6_resolve_unique_path_first_free_witness :
    ∃ k, _resolve_unique_path [("name.mp4".data)] ("name".data) (".mp4".data) =
        some (uniqueCandidate ("name".data) (".mp4".data) k) ∧
      uniqueCandidate ("name".data) (".mp4".data) k ∉ [("name.mp4".data)] ∧
      ∀ j < k, uniqueCandidate ("name".data) (".mp4".data) j ∈ [("name.mp4".data)] :=
  (C6_resolve_unique_path_first_free [("name.mp4".data)] ("name".data) (".mp4".data)).1

/-! ## `_build_safe_filename` (src/main.py lines 345-373) -/

/-- Worker for `pyWords`: `cur` accumulates the current word, reversed. -/
def pyWordsAux (cur : PyStr) : PyStr → List PyStr
  | [] => if cur.isEmpty then [] else [cur.reverse]
  | c :: rest =>
    if pyIsSpace c then
      if cur.isEmpty then pyWordsAux [] rest
      else cur.reverse :: pyWordsAux [] rest
    else pyWordsAux (c :: cur) rest

/-- Python `str.split()` with no argument: split on whitespace runs,
discarding empty pieces. -/
def pyWords (s : PyStr) : List PyStr := pyWordsAux [] s

/-- Python `" ".join(words)`. -/
def pyJoinSpace : List PyStr → PyStr
  | [] => []
  | [w] => w
  | w :: ws => w ++ ' ' :: pyJoinSpace ws

/-- Index of the last `'.'` in a name (Python `str.rfind('.')`). -/
def rfindDot (name : PyStr) : Option Nat :=
  match name.reverse.findIdx? (fun c => c == '.') with
  | some j => some (name.length - 1 - j)
  | none => none

/-- `pathlib.PurePath(name).stem` for a name containing no path separator:
`"."` and `".."` are special components whose `name` is empty, and otherwise
the last extension is stripped exactly when the final dot sits at an index
`0 < i < len - 1`. -/
def pathStem (name : PyStr) : PyStr :=
  if name = ['.'] ∨ name = ['.', '.'] then []
  else
    match rfindDot name with
    | some i => if 0 < i ∧ i < name.length - 1 then name.take i else name
    | none => name

/-- The per-character path-separator replacement of `_build_safe_filename`
(backslash first, then slash, both to underscore). -/
def replaceSeparator (c : Char) : Char :=
  if c = '\\' then '_' else if c = '/' then '_' else c

/-- `_build_safe_filename(file_name)`: strip, replace path separators with
underscores, collapse whitespace runs to single spaces, raise when nothing
remains, and return the extension-free stem, or `"download"` when the stem
is empty.  Translated from src/main.py lines 345-373. -/
def _build_safe_filename (file_name : PyStr) : Except String PyStr :=
  let replaced := (pyStrip file_name).map replaceSeparator
  let cleaned := pyJoinSpace (pyWords replaced)
  if cleaned = [] then
    .error "name must contain at least one non-space character"
  else if pathStem cleaned = [] then .ok ("download".data)
  else .ok (pathStem cleaned)

/-- C10 counterexample: the input `"a .txt"` is accepted and sanitized to the
stem `"a "`, which ends in whitespace — the claimed absence of trailing
whitespace in the returned stem does not hold. -/
theorem C10_safe_filename_counterexample :
    _build_safe_filename ("a .txt".data) = .ok ("a ".data) ∧
    ("a ".data).getLast? = some ' ' ∧ pyIsSpace ' ' = true := by
  refine ⟨by decide, by decide, by decide⟩

theorem pyWordsAux_ne_nil (s : PyStr) :
    ∀ cur w, w ∈ pyWordsAux cur s → w ≠ [] := by
  induction s with
  | nil =>
    intro cur w hw
    simp only [pyWordsAux] at hw
    split at hw
    · simp at hw
    · next h =>
      simp only [List.mem_singleton] at hw
      subst hw
      simp only [ne_eq, List.reverse_eq_nil_iff]
      simpa [List.isEmpty_iff] using h
  | cons c rest ih =>
    intro cur w hw
    simp only [pyWordsAux] at hw
    split at hw
    · split at hw
      · exact ih [] w hw
      · next h =>
        rcases List.mem_cons.mp hw with rfl | hw2
        · simp only [ne_eq, List.reverse_eq_nil_iff]
          simpa [List.isEmpty_iff] using h
        · exact ih [] w hw2
    · exact ih (c :: cur) w hw

theorem pyWordsAux_chars (s : PyStr) :
    ∀ cur w, w ∈ pyWordsAux cur s → ∀ c ∈ w, c ∈ cur ∨ c ∈ s := by
  induction s with
  | nil =>
    intro cur w hw c hc
    simp only [pyWordsAux] at hw
    split at hw
    · simp at hw
    · simp only [List.mem_singleton] at hw
      subst hw
      exact Or.inl (by simpa using hc)
  | cons x rest ih =>
    intro cur w hw c hc
    simp only [pyWordsAux] at hw
    split at hw
    · split at hw
      · rcases ih [] w hw c hc with h | h
        · simp at h
        · exact Or.inr (List.mem_cons_of_mem _ h)
      · rcases List.mem_cons.mp hw with rfl | hw2
        · exact Or.inl (by simpa using hc)
        · rcases ih [] w hw2 c hc with h | h
          · simp at h
          · exact Or.inr (List.mem_cons_of_mem _ h)
    · rcases ih (x :: cur) w hw c hc with h | h
      · rcases List.mem_cons.mp h with rfl | h2
        · exact Or.inr (List.mem_cons_self _ _)
        · exact Or.inl h2
      · exact Or.inr (List.mem_cons_of_mem _ h)

theorem pyWordsAux_nonspace (s : PyStr) :
    ∀ cur, (∀ c ∈ cur, pyIsSpace c = false) →
      ∀ w ∈ pyWordsAux cur s, ∀ c ∈ w, pyIsSpace c = false := by
  induction s with
  | nil =>
    intro cur hcur w hw c hc
    simp only [pyWordsAux] at hw
    split at hw
    · simp at hw
    · simp only [List.mem_singleton] at hw
      subst hw
      exact hcur c (by simpa using hc)
  | cons x rest ih =>
    intro cur hcur w hw c hc
    simp only [pyWordsAux] at hw
    split at hw
    · split at hw
      · exact ih [] (by simp) w hw c hc
      · rcases List.mem_cons.mp hw with rfl | hw2
        · exact hcur c (by simpa using hc)
        · exact ih [] (by simp) w hw2 c hc
    · next hx =>
      refine ih (x :: cur) ?_ w hw c hc
      intro d hd
      rcases List.mem_cons.mp hd with rfl | hd2
      · simpa using hx
      · exact hcur d hd2

theorem pyWordsAux_eq_nil_iff (s : PyStr) :
    ∀ cur, pyWordsAux cur s = [] ↔ (cur = [] ∧ ∀ c ∈ s, pyIsSpace c = true) := by
  induction s with
  | nil =>
    intro cur
    simp only [pyWordsAux]
    split
    · next h =>
      simp [List.isEmpty_iff.mp h]
    · next h =>
      constructor
      · intro hh; simp at hh
      · rintro ⟨rfl, _⟩
        simp at h
  | cons x rest ih =>
    intro cur
    simp only [pyWordsAux]
    split
    · next hx =>
      split
      · next hcur =>
        rw [ih []]
        constructor
        · rintro ⟨_, hall⟩
          refine ⟨List.isEmpty_iff.mp hcur, ?_⟩
          intro c hc
          rcases List.mem_cons.mp hc with rfl | hc2
          · simpa using hx
          · exact hall c hc2
        · rintro ⟨_, hall⟩
          exact ⟨rfl, fun c hcm => hall c (List.mem_cons_of_mem _ hcm)⟩
      · next hcur =>
        constructor
        · intro hh; simp at hh
        · rintro ⟨rfl, _⟩
          simp at hcur
    · next hx =>
      rw [ih (x :: cur)]
      constructor
      · rintro ⟨hh, _⟩
        simp at hh
      · rintro ⟨rfl, hall⟩
        exact absurd (hall x (List.mem_cons_self x rest)) (by simpa using hx)

theorem pyJoinSpace_eq_nil (ws : List PyStr) (hne : ∀ w ∈ ws, w ≠ []) :
    pyJoinSpace ws = [] ↔ ws = [] := by
  cases ws with
  | nil => simp [pyJoinSpace]
  | cons w t =>
    cases t with
    | nil =>
      simp only [pyJoinSpace]
      have hw := hne w (by simp)
      simp [hw]
    | cons w2 t2 =>
      simp only [pyJoinSpace]
      constructor
      · intro h
        rcases List.append_eq_nil.mp h with ⟨_, h2⟩
        simp at h2
      · intro h
        simp at h

theorem mem_pyJoinSpace (ws : List PyStr) (c : Char) (hc : c ∈ pyJoinSpace ws) :
    (∃ w ∈ ws, c ∈ w) ∨ c = ' ' := by
  induction ws with
  | nil => simp [pyJoinSpace] at hc
  | cons w t ih =>
    cases t with
    | nil =>
      simp only [pyJoinSpace] at hc
      exact Or.inl ⟨w, by simp, hc⟩
    | cons w2 t2 =>
      simp only [pyJoinSpace] at hc
      rcases List.mem_append.mp hc with h | h
      · exact Or.inl ⟨w, by simp, h⟩
      · rcases List.mem_cons.mp h with rfl | h2
        · exact Or.inr rfl
        · rcases ih h2 with ⟨w', hw', hcw⟩ | h'
          · exact Or.inl ⟨w', List.mem_cons_of_mem _ hw', hcw⟩
          · exact Or.inr h'

theorem head?_pyJoinSpace (w : PyStr) (ws : List PyStr) (hw : w ≠ []) :
    (pyJoinSpace (w :: ws)).head? = w.head? := by
  cases ws with
  | nil => simp [pyJoinSpace]
  | cons w2 t =>
    simp only [pyJoinSpace]
    cases w with
    | nil => exact absurd rfl hw
    | cons c cs => simp

theorem chain'_of_all_nonspace (w : PyStr) (h : ∀ c ∈ w, pyIsSpace c = false) :
    List.Chain' (fun a b => pyIsSpace a = false ∨ pyIsSpace b = false) w := by
  induction w with
  | nil => simp
  | cons c t ih =>
    cases t with
    | nil => simp
    | cons d u =>
      refine List.Chain'.cons (Or.inl (h c (by simp))) ?_
      exact ih (fun e he => h e (List.mem_cons_of_mem _ he))

theorem chain'_pyJoinSpace (ws : List PyStr)
    (h : ∀ w ∈ ws, w ≠ [] ∧ ∀ c ∈ w, pyIsSpace c = false) :
    List.Chain' (fun a b => pyIsSpace a = false ∨ pyIsSpace b = false)
      (pyJoinSpace ws) := by
  induction ws with
  | nil => simp [pyJoinSpace]
  | cons w t ih =>
    cases t with
    | nil =>
      simp only [pyJoinSpace]
      exact chain'_of_all_nonspace w (h w (by simp)).2
    | cons w2 t2 =>
      simp only [pyJoinSpace]
      have hw := h w (by simp)
      have hrest : ∀ v ∈ w2 :: t2, v ≠ [] ∧ ∀ c ∈ v, pyIsSpace c = false :=
        fun v hv => h v (List.mem_cons_of_mem _ hv)
      refine List.Chain'.append (chain'_of_all_nonspace w hw.2) ?_ ?_
      · refine List.Chain'.cons' (ih hrest) ?_
        intro y hy
        right
        have hw2 := hrest w2 (by simp)
        rw [head?_pyJoinSpace w2 t2 hw2.1] at hy
        exact hw2.2 y (List.mem_of_mem_head? hy)
      · intro x hx y hy
        left
        exact hw.2 x (List.mem_of_mem_getLast? hx)

theorem replaceSeparator_space (c : Char) :
    pyIsSpace (replaceSeparator c) = pyIsSpace c := by
  unfold replaceSeparator
  split
  · next h => subst h; decide
  · split
    · next h => subst h; decide
    · rfl

theorem replaceSeparator_not_sep (c : Char) :
    replaceSeparator c ≠ '/' ∧ replaceSeparator c ≠ '\\' := by
  unfold replaceSeparator
  split
  · exact ⟨by decide, by decide⟩
  · next h1 =>
    split
    · exact ⟨by decide, by decide⟩
    · next h2 => exact ⟨h2, h1⟩

theorem mem_dropWhile_of_not (p : Char → Bool) (l : PyStr) (c : Char)
    (hc : c ∈ l) (hns : p c = false) : c ∈ l.dropWhile p := by
  induction l with
  | nil => simp at hc
  | cons x t ih =>
    rw [List.dropWhile_cons]
    by_cases hx : p x = true
    · rw [if_pos hx]
      rcases List.mem_cons.mp hc with rfl | hm
      · rw [hx] at hns; cases hns
      · exact ih hm
    · rw [if_neg hx]
      exact hc

theorem mem_pyStrip_of_not_space (l : PyStr) (c : Char) (hc : c ∈ l)
    (hns : pyIsSpace c = false) : c ∈ pyStrip l := by
  unfold pyStrip
  rw [List.mem_reverse]
  apply mem_dropWhile_of_not _ _ _ _ hns
  rw [List.mem_reverse]
  exact mem_dropWhile_of_not _ _ _ hc hns

theorem pyStrip_subset (l : PyStr) : pyStrip l ⊆ l := by
  intro c hc
  unfold pyStrip at hc
  rw [List.mem_reverse] at hc
  have h1 := (List.dropWhile_sublist (l := (l.dropWhile pyIsSpace).reverse)
    pyIsSpace).subset hc
  rw [List.mem_reverse] at h1
  exact (List.dropWhile_sublist pyIsSpace).subset h1

/-- The `let`-free reading of `_build_safe_filename`. -/
theorem build_safe_filename_eq (l : PyStr) :
    _build_safe_filename l =
      (if pyJoinSpace (pyWords ((pyStrip l).map replaceSeparator)) = [] then
        .error "name must contain at least one non-space character"
      else if pathStem (pyJoinSpace (pyWords ((pyStrip l).map replaceSeparator))) = []
        then .ok ("download".data)
      else .ok (pathStem (pyJoinSpace (pyWords ((pyStrip l).map replaceSeparator))))) :=
  rfl

theorem pathStem_cases (name : PyStr) :
    pathStem name = [] ∨ pathStem name = name ∨
      ∃ i, 0 < i ∧ pathStem name = name.take i := by
  unfold pathStem
  split
  · exact Or.inl rfl
  · cases h : rfindDot name with
    | none =>
      simp only [h]
      simp
    | some i =>
      simp only [h]
      split
      · next hcond => exact Or.inr (Or.inr ⟨i, hcond.1, rfl⟩)
      · simp

theorem head?_take_pos (l : PyStr) (i : Nat) (hi : 0 < i) :
    (l.take i).head? = l.head? := by
  cases l with
  | nil => simp
  | cons c t =>
    cases i with
    | zero => omega
    | succ j => simp

/-- C10 (amended): `_build_safe_filename` raises exactly when the input has
no non-whitespace character (path separators count as non-whitespace since
they are replaced by underscores before the emptiness check); otherwise it
returns a non-empty stem containing no `/` or `\` character, not starting
with whitespace and containing no two consecutive whitespace characters —
the fallback stem `download` included.  (Trailing whitespace can remain
when a space directly precedes the final extension dot, per the
counterexample.) -/
theorem C10_safe_filename_amended (l : PyStr) :
    ((∃ e, _build_safe_filename l = .error e) ↔ (∀ c ∈ l, pyIsSpace c = true)) ∧
    (∀ r, _build_safe_filename l = .ok r →
      r ≠ [] ∧
      (∀ c ∈ r, c ≠ '/' ∧ c ≠ '\\') ∧
      (∀ c, r.head? = some c → pyIsSpace c = false) ∧
      List.Chain' (fun a b => pyIsSpace a = false ∨ pyIsSpace b = false) r) := by
  have hwords_ne : ∀ w ∈ pyWords ((pyStrip l).map replaceSeparator), w ≠ [] :=
    fun w hw => pyWordsAux_ne_nil _ [] w hw
  have hwords_nonspace :
      ∀ w ∈ pyWords ((pyStrip l).map replaceSeparator),
        ∀ c ∈ w, pyIsSpace c = false :=
    fun w hw c hc => pyWordsAux_nonspace _ [] (by simp) w hw c hc
  have hcleaned_iff :
      pyJoinSpace (pyWords ((pyStrip l).map replaceSeparator)) = [] ↔
        (∀ c ∈ l, pyIsSpace c = true) := by
    rw [pyJoinSpace_eq_nil _ hwords_ne, pyWords, pyWordsAux_eq_nil_iff]
    constructor
    · rintro ⟨_, hall⟩ c hc
      by_contra hns
      have hmem : c ∈ pyStrip l :=
        mem_pyStrip_of_not_space l c hc (by simpa using hns)
      have := hall (replaceSeparator c) (List.mem_map_of_mem _ hmem)
      rw [replaceSeparator_space] at this
      exact hns (by simpa using this)
    · intro hall
      refine ⟨rfl, ?_⟩
      intro c hc
      obtain ⟨d, hd, rfl⟩ := List.mem_map.mp hc
      rw [replaceSeparator_space]
      exact hall d (pyStrip_subset l hd)
  constructor
  · rw [← hcleaned_iff]
    constructor
    · rintro ⟨e, he⟩
      rw [build_safe_filename_eq] at he
      by_contra hcl
      rw [if_neg hcl] at he
      split at he <;> exact absurd he (by simp)
    · intro hcl
      rw [build_safe_filename_eq, if_pos hcl]
      exact ⟨_, rfl⟩
  · intro r hr
    rw [build_safe_filename_eq] at hr
    by_cases hcl : pyJoinSpace (pyWords ((pyStrip l).map replaceSeparator)) = []
    · rw [if_pos hcl] at hr
      exact absurd hr (by simp)
    · rw [if_neg hcl] at hr
      have hcl_sep : ∀ c ∈ pyJoinSpace (pyWords ((pyStrip l).map replaceSeparator)),
          c ≠ '/' ∧ c ≠ '\\' := by
        intro c hc
        rcases mem_pyJoinSpace _ c hc with ⟨w, hw, hcw⟩ | rfl
        · rcases pyWordsAux_chars _ [] w hw c hcw with h | h
          · simp at h
          · obtain ⟨d, _, rfl⟩ := List.mem_map.mp h
            exact replaceSeparator_not_sep d
        · exact ⟨by decide, by decide⟩
      have hcl_head : ∀ c,
          (pyJoinSpace (pyWords ((pyStrip l).map replaceSeparator))).head? = some c →
          pyIsSpace c = false := by
        intro c hc
        cases hws : pyWords ((pyStrip l).map replaceSeparator) with
        | nil => rw [hws] at hc; simp [pyJoinSpace] at hc
        | cons w t =>
          rw [hws] at hc
          rw [head?_pyJoinSpace w t (hwords_ne w (hws ▸ List.mem_cons_self w t))] at hc
          exact hwords_nonspace w (hws ▸ List.mem_cons_self w t) c
            (List.mem_of_mem_head? hc)
      have hcl_chain :
          List.Chain' (fun a b => pyIsSpace a = false ∨ pyIsSpace b = false)
            (pyJoinSpace (pyWords ((pyStrip l).map replaceSeparator))) :=
        chain'_pyJoinSpace _ (fun w hw => ⟨hwords_ne w hw, hwords_nonspace w hw⟩)
      by_cases hstem :
          pathStem (pyJoinSpace (pyWords ((pyStrip l).map replaceSeparator))) = []
      · rw [if_pos hstem] at hr
        obtain rfl : ("download".data : PyStr) = r := by simpa using hr
        exact ⟨by decide, by decide, by decide,
          chain'_of_all_nonspace _ (by decide)⟩
      · rw [if_neg hstem] at hr
        obtain rfl : pathStem (pyJoinSpace (pyWords ((pyStrip l).map replaceSeparator)))
            = r := by simpa using hr
        rcases pathStem_cases (pyJoinSpace (pyWords ((pyStrip l).map replaceSeparator)))
          with h | h | ⟨i, hi, h⟩
        · exact absurd h hstem
        · rw [h]
          exact ⟨hcl, hcl_sep, hcl_head, hcl_chain⟩
        · rw [h]
          refine ⟨?_, ?_, ?_, ?_⟩
          · rw [← h]; exact hstem
          · intro c hc
            exact hcl_sep c (List.take_subset _ _ hc)
          · intro c hc
            rw [head?_take_pos _ i hi] at hc
            exact hcl_head c hc
          · exact List.Chain'.take hcl_chain i

/-- Witness for C10 (amended) at the input `"report final.txt"`, whose
sanitized stem is `"report final"`. -/
theorem C10_safe_filename_amended_witness :
    ("report final".data : PyStr) ≠ [] ∧
    (∀ c ∈ ("report final".data : PyStr), c ≠ '/' ∧ c ≠ '\\') ∧
    (∀ c, ("report final".data : PyStr).head? = some c → pyIsSpace c = false) ∧
    List.Chain' (fun a b => pyIsSpace a = false ∨ pyIsSpace b = false)
      ("report final".data : PyStr) :=
  (C10_safe_filename_amended ("report final.txt".data)).2 ("report final".data)
    (by rfl)
